import Mathlib

/-!
Verification of the Thai Document AI OCR pipeline (`src/unnamed/part_002`).

The development shallowly embeds the pipeline's pure text processing
(`_normalizeExtractedText`, the page-assembly loop), its concurrency
limiter (`createConcurrencyLimiter`) as a labelled transition system,
the enhancer/recognizer pipeline wiring (`enhancedPromises`,
`enhanceTasks`, `ocrTasks`) as a second transition system, and the
coordinator `_runOcrProcessingPipeline` as a state-threading function
over an abstract file system.  Strings are modelled as `List Char`.
-/

namespace NtOcr

/- ======================================================
   Character classes used by the JavaScript string methods
   ====================================================== -/

/-- JavaScript whitespace for `String.prototype.trim` and `parseInt`:
WhiteSpace (tab, vertical tab, form feed, space, no-break space, BOM,
and the Space_Separator characters) together with the LineTerminator
characters (line feed, carriage return, line separator, paragraph
separator). -/
def isJsWs (c : Char) : Bool :=
  c = ' ' || c = '\t' || c = '\n' || c = '\r' || c = '\x0b' || c = '\x0c' ||
  c = '\u00A0' || c = '\uFEFF' || c = '\u1680' ||
  ('\u2000' ≤ c && c ≤ '\u200A') ||
  c = '\u2028' || c = '\u2029' || c = '\u202F' || c = '\u205F' || c = '\u3000'

/-- The character class `[ \t]` of the regex in `_normalizeExtractedText`. -/
def isSpTab (c : Char) : Bool := c = ' ' || c = '\t'

/- ======================================================
   `_normalizeExtractedText` (part_002 lines 92-97)

   t => (t || "")
          .replace(/\r\n/g, "\n")
          .replace(/[ \t]+\n/g, "\n")
          .replace(/\n{3,}/g, "\n\n")
          .trim()
   ====================================================== -/

/-- `.replace(/\r\n/g, "\n")`: one left-to-right pass replacing each
non-overlapping CR-LF pair by LF.  A CR that is not directly followed by
LF is kept and the scan continues after it, exactly as the global regex
replace does. -/
def repCRLF : List Char → List Char
  | '\r' :: '\n' :: rest => '\n' :: repCRLF rest
  | c :: rest => c :: repCRLF rest
  | [] => []

/-- Lookahead for the regex `[ \t]+\n`: does this list reach a line feed
through (zero or more) spaces and tabs only? -/
def wsThenNl : List Char → Bool
  | [] => false
  | c :: rest => if c = '\n' then true else if isSpTab c then wsThenNl rest else false

/-- `.replace(/[ \t]+\n/g, "\n")`: a space or tab is deleted exactly when
the next character that is not a space or tab is a line feed (the greedy
leftmost-match semantics of the global replace). -/
def stripWsNl : List Char → List Char
  | [] => []
  | c :: rest => if isSpTab c && wsThenNl rest then stripWsNl rest else c :: stripWsNl rest

/-- Worker for `.replace(/\n{3,}/g, "\n\n")`.  `k` counts the pending run
of line feeds; when the run ends (at a non-LF character or at the end of
the input) a run of three or more is emitted as exactly two line feeds,
shorter runs are emitted unchanged. -/
def collapseGo : Nat → List Char → List Char
  | k, [] => List.replicate (if 3 ≤ k then 2 else k) '\n'
  | k, c :: rest =>
      if c = '\n' then collapseGo (k + 1) rest
      else List.replicate (if 3 ≤ k then 2 else k) '\n' ++ c :: collapseGo 0 rest

/-- `.replace(/\n{3,}/g, "\n\n")`: every maximal run of three or more
line feeds collapses to exactly two. -/
def collapseNl (l : List Char) : List Char := collapseGo 0 l

/-- Leading-whitespace removal half of `.trim()`. -/
def trimLeft (l : List Char) : List Char := l.dropWhile isJsWs

/-- Trailing-whitespace removal half of `.trim()`. -/
def trimRight (l : List Char) : List Char := (l.reverse.dropWhile isJsWs).reverse

/-- JavaScript `.trim()`: drop whitespace at both ends. -/
def jsTrim (l : List Char) : List Char := trimRight (trimLeft l)

/-- `_normalizeExtractedText` (part_002 lines 92-97).  The guard
`(t || "")` is the identity on the string model, since the only falsy
string is `""` itself. -/
def normalizeExtractedText (t : List Char) : List Char :=
  jsTrim (collapseNl (stripWsNl (repCRLF t)))

/- ======================================================
   Observable properties of normalized text
   ====================================================== -/

/-- Does the list contain an adjacent CR-LF pair? -/
def hasCRLF : List Char → Bool
  | a :: b :: rest => (a = '\r' && b = '\n') || hasCRLF (b :: rest)
  | _ => false

/-- Does the list contain a space or tab immediately followed by a line
feed (the pattern `[ \t]\n`)? -/
def hasSpTabNl : List Char → Bool
  | a :: b :: rest => (isSpTab a && b = '\n') || hasSpTabNl (b :: rest)
  | _ => false

/-- Does the list contain three consecutive line feeds? -/
def has3Nl : List Char → Bool
  | a :: b :: c :: rest =>
      (a = '\n' && b = '\n' && c = '\n') || has3Nl (b :: c :: rest)
  | _ => false

/-- No position holds a deletable space or tab, i.e. one whose next
non-space-tab character is a line feed.  This is the fixed-point
condition of `stripWsNl`. -/
def noDel : List Char → Bool
  | [] => true
  | c :: rest => !(isSpTab c && wsThenNl rest) && noDel rest

/-- Every carriage return in the list is immediately followed by a line
feed. -/
def crPaired : List Char → Bool
  | [] => true
  | c :: rest => (c != '\r' || rest.head? = some '\n') && crPaired rest

/- ======================================================
   Result assembly (part_002 lines 250-255 and 263-268)
   ====================================================== -/

/-- Decimal rendering of a natural number, as JavaScript template
interpolation produces for `${i + 1}`. -/
def natChars (n : Nat) : List Char := (toString n).data

/-- The string appended for 0-based page index `i` in one iteration of
the assembly loop (lines 252-254). -/
def pageChunk (includeMarkers : Bool) (i : Nat) (r : List Char) : List Char :=
  if includeMarkers then
    "\n\n===== PAGE ".data ++ natChars (i + 1) ++ " =====\n\n".data ++ r
  else
    (if i = 0 then [] else "\n\n".data) ++ r

/-- The assembly loop (lines 250-255): `text` starts empty and each page
appends its chunk; string concatenation in a loop is flattening. -/
def assembleGo (includeMarkers : Bool) : Nat → List (List Char) → List Char
  | _, [] => []
  | i, r :: rest => pageChunk includeMarkers i r ++ assembleGo includeMarkers (i + 1) rest

/-- The fully assembled `text` variable before the final trim. -/
def assembleText (includeMarkers : Bool) (pageResults : List (List Char)) : List Char :=
  assembleGo includeMarkers 0 pageResults

/-- `res.text`, line 265: `text.trim()`. -/
def resultText (includeMarkers : Bool) (pageResults : List (List Char)) : List Char :=
  jsTrim (assembleText includeMarkers pageResults)

/-- Spec-side rendering of marker mode, following the spec's words: for
page `k` the literal string followed by that page's text, pages
concatenated in ascending order with no additional separator. -/
def markerConcat : Nat → List (List Char) → List Char
  | _, [] => []
  | k, r :: rest =>
      "\n\n===== PAGE ".data ++ natChars k ++ " =====\n\n".data ++ r ++ markerConcat (k + 1) rest

/-- Spec-side rendering of non-marker mode, following the spec's words:
pages joined by a single blank line. -/
def blankJoin : List (List Char) → List Char
  | [] => []
  | [r] => r
  | r :: rest => r ++ "\n\n".data ++ blankJoin rest

/- ======================================================
   `createConcurrencyLimiter` (part_002 lines 58-70)

   function createConcurrencyLimiter(max) {
       let active = 0;
       const queue = [];
       return async fn => {
           while (active >= max) await new Promise(r => queue.push(r));
           active++;
           try { return await fn(); }
           finally {
               active--;
               if (queue.length) queue.shift()();
           }
       };
   }
   ====================================================== -/

/-- Phase of one wrapped call of a limiter.  `checking` is at the
`while` guard test; `waiting` is parked in `queue`; `running` holds a
permit and executes `fn`; `done` has run the `finally` block. -/
inductive GPhase where
  | checking
  | waiting
  | running
  | done
deriving DecidableEq

/-- State of one limiter: the `active` counter, the FIFO `queue` of
parked resolvers (task indices), and the phase of every call submitted
so far (the index into the list identifies the call). -/
structure GateState where
  active : Nat
  queue : List Nat
  phases : List GPhase
deriving DecidableEq

/-- A freshly created limiter: `active = 0`, empty queue, no calls. -/
def GateState.init : GateState := ⟨0, [], []⟩

/-- Number of calls currently holding a permit. -/
def countRunning : List GPhase → Nat
  | [] => 0
  | GPhase.running :: rest => countRunning rest + 1
  | _ :: rest => countRunning rest

/-- Interleaving semantics of the limiter.  The label-free transitions
cover every arrival pattern: a new call may be submitted at any time,
guard checks, parking, and releases interleave arbitrarily.  `ok` in the
two finish steps records whether `fn` returned normally or threw; the
`finally` block makes both exits identical, which is exactly the
scoped-release property. -/
inductive GateStep (max : Nat) : GateState → GateState → Prop where
  | submit (s : GateState) :
      GateStep max s ⟨s.active, s.queue, s.phases ++ [GPhase.checking]⟩
  | acquire (s : GateState) (i : Nat)
      (hi : s.phases.get? i = some GPhase.checking) (hlt : s.active < max) :
      GateStep max s ⟨s.active + 1, s.queue, s.phases.set i GPhase.running⟩
  | block (s : GateState) (i : Nat)
      (hi : s.phases.get? i = some GPhase.checking) (hge : max ≤ s.active) :
      GateStep max s ⟨s.active, s.queue ++ [i], s.phases.set i GPhase.waiting⟩
  | finishNoWake (s : GateState) (i : Nat) (ok : Bool)
      (hi : s.phases.get? i = some GPhase.running) (hq : s.queue = []) :
      GateStep max s ⟨s.active - 1, [], s.phases.set i GPhase.done⟩
  | finishWake (s : GateState) (i j : Nat) (q' : List Nat) (ok : Bool)
      (hi : s.phases.get? i = some GPhase.running) (hq : s.queue = j :: q') :
      GateStep max s
        ⟨s.active - 1, q', (s.phases.set i GPhase.done).set j GPhase.checking⟩

/-- States a limiter with bound `max` can reach from creation. -/
def GateReach (max : Nat) (s : GateState) : Prop :=
  Relation.ReflTransGen (GateStep max) GateState.init s

/- ======================================================
   The true pipeline (part_002 lines 212-246): two limiters,
   per-page one-shot promises, enhance tasks and OCR tasks
   ====================================================== -/

/-- Phase of the enhance task of one page (lines 224-233).  `idle` is at
the limiter guard; `queued` is parked in the enhance limiter's queue;
`work` holds a permit and runs `_enhanceImageUsingSharp`; `resolved` has
called `enhancedPromises[i].resolve(out)` but not yet released its
permit; `done` has released. -/
inductive EnhPhase where
  | idle
  | queued
  | work
  | resolved
  | done
deriving DecidableEq

/-- Phase of the OCR task of one page (lines 235-244).  `idle` is at the
limiter guard; `queued` is parked in the OCR limiter's queue; `holding`
holds a permit and awaits `enhancedPromises[i].promise`; `started` has
passed the await and runs `_performDocumentAiOcrOnImage`; `done` has
written `pageResults[i]` and released. -/
inductive OcrPhase where
  | idle
  | queued
  | holding
  | started
  | done
deriving DecidableEq

/-- Joint state of the pipeline for one run: both limiters, the per-page
one-shot signals (`enhancedPromises`), the OCR task phases and the
write-once `pageResults` array. -/
structure PipeState where
  eActive : Nat
  eQueue : List Nat
  enh : List EnhPhase
  oActive : Nat
  oQueue : List Nat
  ocr : List OcrPhase
  sig : List Bool
  results : List (Option (List Char))
deriving DecidableEq

/-- State right after lines 212-222: limiters fresh, all tasks at their
guards, no promise resolved, `pageResults` allocated but unwritten. -/
def PipeState.init (n : Nat) : PipeState :=
  ⟨0, [], List.replicate n EnhPhase.idle, 0, [],
   List.replicate n OcrPhase.idle, List.replicate n false,
   List.replicate n Option.none⟩

/-- Interleaving semantics of the pipeline.  `eLim` and `oLim` are the
enhancement and OCR concurrency limits, `f i` is the text the external
recognition service returns for 0-based page `i` (deterministic per
page, independent of scheduling). -/
inductive PipeStep (eLim oLim : Nat) (f : Nat → List Char) : PipeState → PipeState → Prop where
  | eAcquire (s : PipeState) (i : Nat)
      (hi : s.enh.get? i = some EnhPhase.idle) (hlt : s.eActive < eLim) :
      PipeStep eLim oLim f s
        { s with eActive := s.eActive + 1, enh := s.enh.set i EnhPhase.work }
  | eBlock (s : PipeState) (i : Nat)
      (hi : s.enh.get? i = some EnhPhase.idle) (hge : eLim ≤ s.eActive) :
      PipeStep eLim oLim f s
        { s with eQueue := s.eQueue ++ [i], enh := s.enh.set i EnhPhase.queued }
  | eResolve (s : PipeState) (i : Nat)
      (hi : s.enh.get? i = some EnhPhase.work) :
      PipeStep eLim oLim f s
        { s with enh := s.enh.set i EnhPhase.resolved, sig := s.sig.set i true }
  | eReleaseNoWake (s : PipeState) (i : Nat)
      (hi : s.enh.get? i = some EnhPhase.resolved) (hq : s.eQueue = []) :
      PipeStep eLim oLim f s
        { s with eActive := s.eActive - 1, eQueue := [], enh := s.enh.set i EnhPhase.done }
  | eReleaseWake (s : PipeState) (i j : Nat) (q' : List Nat)
      (hi : s.enh.get? i = some EnhPhase.resolved) (hq : s.eQueue = j :: q') :
      PipeStep eLim oLim f s
        { s with eActive := s.eActive - 1, eQueue := q',
                 enh := (s.enh.set i EnhPhase.done).set j EnhPhase.idle }
  | oAcquire (s : PipeState) (i : Nat)
      (hi : s.ocr.get? i = some OcrPhase.idle) (hlt : s.oActive < oLim) :
      PipeStep eLim oLim f s
        { s with oActive := s.oActive + 1, ocr := s.ocr.set i OcrPhase.holding }
  | oBlock (s : PipeState) (i : Nat)
      (hi : s.ocr.get? i = some OcrPhase.idle) (hge : oLim ≤ s.oActive) :
      PipeStep eLim oLim f s
        { s with oQueue := s.oQueue ++ [i], ocr := s.ocr.set i OcrPhase.queued }
  | oStart (s : PipeState) (i : Nat)
      (hi : s.ocr.get? i = some OcrPhase.holding) (hsig : s.sig.get? i = some true) :
      PipeStep eLim oLim f s
        { s with ocr := s.ocr.set i OcrPhase.started }
  | oFinishNoWake (s : PipeState) (i : Nat)
      (hi : s.ocr.get? i = some OcrPhase.started) (hq : s.oQueue = []) :
      PipeStep eLim oLim f s
        { s with oActive := s.oActive - 1, oQueue := [],
                 ocr := s.ocr.set i OcrPhase.done,
                 results := s.results.set i (some (normalizeExtractedText (f i))) }
  | oFinishWake (s : PipeState) (i j : Nat) (q' : List Nat)
      (hi : s.ocr.get? i = some OcrPhase.started) (hq : s.oQueue = j :: q') :
      PipeStep eLim oLim f s
        { s with oActive := s.oActive - 1, oQueue := q',
                 ocr := (s.ocr.set i OcrPhase.done).set j OcrPhase.idle,
                 results := s.results.set i (some (normalizeExtractedText (f i))) }

/-- States the pipeline for `n` pages can reach. -/
def PipeReach (eLim oLim : Nat) (f : Nat → List Char) (n : Nat) (s : PipeState) : Prop :=
  Relation.ReflTransGen (PipeStep eLim oLim f) (PipeState.init n) s

/-- The OCR task of page `i` has begun (or finished) its recognition
call. -/
def ocrBegun : Option OcrPhase → Bool
  | some OcrPhase.started => true
  | some OcrPhase.done => true
  | _ => false

/-- A run is complete when every page's OCR task has finished. -/
def pipeDone (n : Nat) (s : PipeState) : Prop :=
  ∀ i, i < n → s.ocr.get? i = some OcrPhase.done

/-- The `pageResults` array read out as the assembly loop reads it
(an unwritten slot reads as the empty string; after a complete run every
slot is written). -/
def readResults (s : PipeState) : List (List Char) :=
  s.results.map (fun o => o.getD [])

/- ======================================================
   `_runOcrProcessingPipeline` (part_002 lines 190-275) and
   `_getPdfPageCount` (lines 102-110), over an abstract
   file system (a list of existing paths)
   ====================================================== -/

/-- Errors thrown by the pipeline, carrying the page or the raw counter
output exactly as the thrown `Error` message does. -/
inductive PErr where
  | invalidPageCount (out : List Char)
  | convertFail (page : Nat)
  | enhanceFail (page : Nat)
  | ocrFail (page : Nat)
  | credentialsNotFound
deriving DecidableEq

/-- External calls the pipeline makes, for instrumentation. -/
inductive Ev where
  | convertCall (page : Nat)
  | enhanceCall (page : Nat)
  | ocrCall (page : Nat)
deriving DecidableEq

/-- The result envelope returned on success (lines 263-268). -/
structure Envelope where
  success : Bool
  text : List Char
  pages : Nat
  length : Nat
deriving DecidableEq

/-- Is `c` a decimal digit? -/
def isDigitCh (c : Char) : Bool := '0' ≤ c && c ≤ '9'

/-- Is `c` a hexadecimal digit? -/
def isHexCh (c : Char) : Bool :=
  ('0' ≤ c && c ≤ '9') || ('a' ≤ c && c ≤ 'f') || ('A' ≤ c && c ≤ 'F')

/-- Numeric value of a hexadecimal digit. -/
def hexVal (c : Char) : Nat :=
  if '0' ≤ c && c ≤ '9' then c.toNat - 48
  else if 'a' ≤ c && c ≤ 'f' then c.toNat - 87
  else c.toNat - 55

/-- Magnitude parsing of JavaScript `parseInt` with no radix argument:
an optional `0x`/`0X` prefix selects base 16, otherwise base 10; the
longest digit run is taken and anything after it ignored; no digits
means `NaN`. -/
def parseIntMag : List Char → Option Nat
  | '0' :: x :: rest =>
      if x = 'x' || x = 'X' then
        let ds := rest.takeWhile isHexCh
        if ds = [] then Option.none
        else some (ds.foldl (fun acc c => acc * 16 + hexVal c) 0)
      else
        let ds := ('0' :: x :: rest).takeWhile isDigitCh
        some (ds.foldl (fun acc c => acc * 10 + (c.toNat - 48)) 0)
  | l =>
      let ds := l.takeWhile isDigitCh
      if ds = [] then Option.none
      else some (ds.foldl (fun acc c => acc * 10 + (c.toNat - 48)) 0)

/-- JavaScript `parseInt(s)`: skip leading whitespace, read an optional
sign, then parse the magnitude; `Option.none` models `NaN`. -/
def parseIntJs (l : List Char) : Option Int :=
  match l.dropWhile isJsWs with
  | '-' :: rest => (parseIntMag rest).map (fun n => -(n : Int))
  | '+' :: rest => (parseIntMag rest).map (fun n => (n : Int))
  | rest => (parseIntMag rest).map (fun n => (n : Int))

/-- The failure condition of `_getPdfPageCount`: `!n || n < 1` with
`n = parseInt(out)` — `NaN`, zero, and negative counts all fail. -/
def pageCountBad (out : List Char) : Bool :=
  match parseIntJs out with
  | Option.none => true
  | some n => n < 1

/-- `_getPdfPageCount` (lines 102-110) applied to the trimmed stdout of
the `mutool show` call. -/
def getPdfPageCount (out : List Char) : Except PErr Nat :=
  match parseIntJs out with
  | Option.none => Except.error (PErr.invalidPageCount out)
  | some n => if n < 1 then Except.error (PErr.invalidPageCount out) else Except.ok n.toNat

/-- Abstract file-system paths. -/
abbrev FsPath := List Char

/-- Does `pre` occur as the leading segment of `p`?  Used to model
`fsp.rm(session, { recursive: true })`, which removes everything under
the session directory. -/
def startsWithList : FsPath → FsPath → Bool
  | [], _ => true
  | _ :: _, [] => false
  | a :: pre, b :: p => a = b && startsWithList pre p

/-- Path of the converted PNG of 1-based page `p` (line 127). -/
def pagePngPath (session : FsPath) (p : Nat) : FsPath :=
  session ++ "/pages/page-".data ++ natChars p ++ ".png".data

/-- Path of the enhanced PNG of 1-based page `p` (line 227). -/
def enhancedPngPath (session : FsPath) (p : Nat) : FsPath :=
  session ++ "/ocr_best/page-".data ++ natChars p ++ "-ocr-best.png".data

/-- The conversion loop of `_convertPdfToPngImages` (lines 122-133),
sequentialized in page order: each page emits its `mutool draw` call,
adds its PNG on success, and the first failing page aborts the stage. -/
def convertPages (session : FsPath) (convOk : Nat → Bool) :
    List Nat → List FsPath → List Ev → Except PErr Unit × List FsPath × List Ev
  | [], fs, evs => (Except.ok (), fs, evs)
  | p :: rest, fs, evs =>
      let evs' := evs ++ [Ev.convertCall p]
      if convOk p then convertPages session convOk rest (fs ++ [pagePngPath session p]) evs'
      else (Except.error (PErr.convertFail p), fs, evs')

/-- The pipelining phase (lines 224-246), sequentialized in page order:
each page emits its enhancement call, adds the enhanced PNG and emits
its recognition call on success, and appends the normalized recognized
text; the first failing call aborts the phase. -/
def processPages (session : FsPath) (enhOk ocrOk : Nat → Bool) (f : Nat → List Char) :
    List Nat → List FsPath → List Ev → List (List Char) →
    Except PErr (List (List Char)) × List FsPath × List Ev
  | [], fs, evs, acc => (Except.ok acc, fs, evs)
  | p :: rest, fs, evs, acc =>
      let evs₁ := evs ++ [Ev.enhanceCall p]
      if enhOk p then
        let fs₁ := fs ++ [enhancedPngPath session p]
        let evs₂ := evs₁ ++ [Ev.ocrCall p]
        if ocrOk p then
          processPages session enhOk ocrOk f rest fs₁ evs₂
            (acc ++ [normalizeExtractedText (f p)])
        else (Except.error (PErr.ocrFail p), fs₁, evs₂)
      else (Except.error (PErr.enhanceFail p), fs, evs₁)

/-- The `try` block of `_runOcrProcessingPipeline` (lines 198-268):
create the workspace directories, write the PDF, count pages, convert,
pipeline, assemble the envelope.  Returns the body's outcome together
with the file system and the emitted external calls, before any
cleanup. -/
def pipelineBody (session : FsPath) (mutoolOut : List Char)
    (convOk enhOk ocrOk : Nat → Bool) (f : Nat → List Char)
    (includeMarkers : Bool) (fs₀ : List FsPath) :
    Except PErr Envelope × List FsPath × List Ev :=
  match getPdfPageCount mutoolOut with
  | Except.error e =>
      (Except.error e, fs₀ ++ [session ++ "/pages".data, session ++ "/ocr_best".data,
        session ++ "/input.pdf".data], [])
  | Except.ok n =>
      match convertPages session convOk (List.range' 1 n)
          (fs₀ ++ [session ++ "/pages".data, session ++ "/ocr_best".data,
            session ++ "/input.pdf".data]) [] with
      | (Except.error e, fs₂, evs₂) => (Except.error e, fs₂, evs₂)
      | (Except.ok _, fs₂, evs₂) =>
          match processPages session enhOk ocrOk f (List.range' 1 n) fs₂ evs₂ [] with
          | (Except.error e, fs₃, evs₃) => (Except.error e, fs₃, evs₃)
          | (Except.ok results, fs₃, evs₃) =>
              (Except.ok ⟨true, resultText includeMarkers results, results.length,
                (resultText includeMarkers results).length⟩, fs₃, evs₃)

/-- Cleanup: `fsp.rm(session, { recursive: true, force: true })`. -/
def rmSession (session : FsPath) (fs : List FsPath) : List FsPath :=
  fs.filter (fun p => !startsWithList session p)

/-- `_runOcrProcessingPipeline` (lines 190-275): run the `try` block;
on success remove the workspace and return the envelope (lines 260-268),
on error remove the workspace and re-throw the caught error unchanged
(lines 270-274). -/
def runOcrPipeline (session : FsPath) (mutoolOut : List Char)
    (convOk enhOk ocrOk : Nat → Bool) (f : Nat → List Char)
    (includeMarkers : Bool) (fs₀ : List FsPath) :
    Except PErr Envelope × List FsPath × List Ev :=
  match pipelineBody session mutoolOut convOk enhOk ocrOk f includeMarkers fs₀ with
  | (Except.ok v, fs, evs) => (Except.ok v, rmSession session fs, evs)
  | (Except.error e, fs, evs) => (Except.error e, rmSession session fs, evs)

/-- The module-load initialization of the Document AI client (lines
76-80): if the credentials file is absent the block throws, otherwise
the client is constructed. -/
def initDocumentAiClient (keyfileExists : Bool) : Except PErr Unit :=
  if keyfileExists then Except.ok () else Except.error PErr.credentialsNotFound

/-- The module together with one pipeline invocation.  The init block of
lines 76-80 is an async IIFE whose thrown error becomes an unhandled
promise rejection; under Node's default policy that rejection is fatal
at module load, so no later pipeline invocation is served.  This
sequencing of init before any run models that policy. -/
def moduleRun (keyfileExists : Bool) (session : FsPath) (mutoolOut : List Char)
    (convOk enhOk ocrOk : Nat → Bool) (f : Nat → List Char)
    (includeMarkers : Bool) (fs₀ : List FsPath) :
    Except PErr Envelope × List FsPath × List Ev :=
  match initDocumentAiClient keyfileExists with
  | Except.error e => (Except.error e, fs₀, [])
  | Except.ok _ => runOcrPipeline session mutoolOut convOk enhOk ocrOk f includeMarkers fs₀

/- ======================================================
   Lemmas: the whitespace-stripping pass
   ====================================================== -/

theorem ne_nl_of_isSpTab {c : Char} (h : isSpTab c = true) : ¬ c = '\n' := by
  simp only [isSpTab, Bool.or_eq_true, decide_eq_true_eq] at h
  rcases h with rfl | rfl <;> decide

theorem wsThenNl_stripWsNl (l : List Char) : wsThenNl (stripWsNl l) = wsThenNl l := by
  induction l with
  | nil => rfl
  | cons c rest ih =>
    simp only [stripWsNl]
    split
    case isTrue h =>
      obtain ⟨hsp, hnl⟩ : isSpTab c = true ∧ wsThenNl rest = true := by simpa using h
      rw [ih, hnl]
      simp [wsThenNl, ne_nl_of_isSpTab hsp, hsp, hnl]
    case isFalse h =>
      simp only [wsThenNl, ih]

theorem noDel_tail {c : Char} {rest : List Char} (h : noDel (c :: rest) = true) :
    noDel rest = true := by
  simp only [noDel, Bool.and_eq_true] at h
  exact h.2

theorem noDel_stripWsNl (l : List Char) : noDel (stripWsNl l) = true := by
  induction l with
  | nil => rfl
  | cons c rest ih =>
    simp only [stripWsNl]
    split
    case isTrue h => exact ih
    case isFalse h =>
      simp only [noDel, Bool.and_eq_true]
      refine ⟨?_, ih⟩
      rw [wsThenNl_stripWsNl]
      have hx : (isSpTab c && wsThenNl rest) = false := by
        cases hy : (isSpTab c && wsThenNl rest)
        · rfl
        · exact absurd hy h
      simp [hx]

theorem stripWsNl_eq_self {l : List Char} (h : noDel l = true) : stripWsNl l = l := by
  induction l with
  | nil => rfl
  | cons c rest ih =>
    simp only [noDel, Bool.and_eq_true, Bool.not_eq_true'] at h
    simp [stripWsNl, h.1, ih h.2]

theorem wsThenNl_append {t : List Char} (l₂ : List Char) (h : wsThenNl t = true) :
    wsThenNl (t ++ l₂) = true := by
  induction t with
  | nil => simp [wsThenNl] at h
  | cons c rest ih =>
    simp only [wsThenNl] at h ⊢
    split at h
    case isTrue hc => simp [hc]
    case isFalse hc =>
      split at h
      case isTrue hsp => simp [hc, hsp, ih h]
      case isFalse hsp => simp at h

theorem noDel_append_left {l₁ l₂ : List Char} (h : noDel (l₁ ++ l₂) = true) :
    noDel l₁ = true := by
  induction l₁ with
  | nil => rfl
  | cons c rest ih =>
    simp only [List.cons_append, noDel, Bool.and_eq_true] at h
    simp only [noDel, Bool.and_eq_true]
    refine ⟨?_, ih h.2⟩
    have h1 := h.1
    simp only [Bool.not_eq_true', Bool.and_eq_false_iff] at h1 ⊢
    rcases h1 with h1 | h1
    · exact Or.inl h1
    · right
      cases hw : wsThenNl rest
      · rfl
      · have hx := wsThenNl_append l₂ hw
        simp only [List.append_eq] at h1
        rw [hx] at h1
        exact h1

theorem noDel_dropWhile (p : Char → Bool) {l : List Char} (h : noDel l = true) :
    noDel (l.dropWhile p) = true := by
  induction l with
  | nil => simpa using h
  | cons c rest ih =>
    rw [List.dropWhile_cons]
    split
    · exact ih (noDel_tail h)
    · exact h

theorem trimRight_append_eq (l : List Char) :
    trimRight l ++ (l.reverse.takeWhile isJsWs).reverse = l := by
  unfold trimRight
  rw [← List.reverse_append, List.takeWhile_append_dropWhile, List.reverse_reverse]

theorem noDel_trimRight {l : List Char} (h : noDel l = true) :
    noDel (trimRight l) = true := by
  have hx : noDel (trimRight l ++ (l.reverse.takeWhile isJsWs).reverse) = true := by
    rw [trimRight_append_eq]
    exact h
  exact noDel_append_left hx

theorem noDel_jsTrim {l : List Char} (h : noDel l = true) : noDel (jsTrim l) = true :=
  noDel_trimRight (noDel_dropWhile isJsWs h)

theorem hasSpTabNl_eq_false_of_noDel {l : List Char} (h : noDel l = true) :
    hasSpTabNl l = false := by
  induction l with
  | nil => rfl
  | cons c rest ih =>
    cases rest with
    | nil => rfl
    | cons b rest' =>
      simp only [hasSpTabNl, Bool.or_eq_false_iff]
      refine ⟨?_, ih (noDel_tail h)⟩
      simp only [noDel, Bool.and_eq_true, Bool.not_eq_true', Bool.and_eq_false_iff] at h
      rcases h.1 with h1 | h1
      · simp [h1]
      · cases hb : decide (b = '\n')
        · simp [hb]
        · exfalso
          have hb' : b = '\n' := of_decide_eq_true hb
          rw [show wsThenNl (b :: rest') = true by simp [wsThenNl, hb']] at h1
          exact absurd h1 (by decide)

/- ======================================================
   Lemmas: the blank-line-collapsing pass
   ====================================================== -/

theorem wsThenNl_replicate_nl {m : Nat} (hm : 1 ≤ m) (r : List Char) :
    wsThenNl (List.replicate m '\n' ++ r) = true := by
  match m, hm with
  | n + 1, _ =>
    rw [List.replicate_succ, List.cons_append, wsThenNl]
    simp

theorem wsThenNl_collapseGo_pos (l : List Char) :
    ∀ k, 1 ≤ k → wsThenNl (collapseGo k l) = true := by
  induction l with
  | nil =>
    intro k hk
    rw [collapseGo]
    have hx := @wsThenNl_replicate_nl (if 3 ≤ k then 2 else k)
      (by split <;> omega) ([] : List Char)
    simpa using hx
  | cons c rest ih =>
    intro k hk
    rw [collapseGo]
    split
    case isTrue hc => exact ih (k + 1) (by omega)
    case isFalse hc => exact wsThenNl_replicate_nl (by split <;> omega) _

theorem wsThenNl_collapseGo_zero (l : List Char) :
    wsThenNl (collapseGo 0 l) = wsThenNl l := by
  induction l with
  | nil => rfl
  | cons c rest ih =>
    rw [collapseGo]
    split
    case isTrue hc =>
      subst hc
      rw [wsThenNl_collapseGo_pos rest 1 (by omega)]
      simp [wsThenNl]
    case isFalse hc =>
      simp only [if_neg (by omega : ¬ 3 ≤ 0), List.replicate_zero, List.nil_append]
      simp only [wsThenNl, ih]

theorem noDel_replicate_nl_append (m : Nat) (r : List Char) :
    noDel (List.replicate m '\n' ++ r) = noDel r := by
  induction m with
  | zero => simp
  | succ n ih =>
    rw [List.replicate_succ, List.cons_append, noDel]
    rw [ih]
    simp [isSpTab]

theorem noDel_collapseGo (l : List Char) :
    ∀ k, noDel l = true → noDel (collapseGo k l) = true := by
  induction l with
  | nil =>
    intro k _
    rw [collapseGo]
    have : noDel (List.replicate (if 3 ≤ k then 2 else k) '\n') = noDel ([] : List Char) := by
      simpa using noDel_replicate_nl_append (if 3 ≤ k then 2 else k) []
    rw [this]
    rfl
  | cons c rest ih =>
    intro k h
    rw [collapseGo]
    split
    case isTrue hc => exact ih (k + 1) (noDel_tail h)
    case isFalse hc =>
      rw [noDel_replicate_nl_append, noDel, Bool.and_eq_true]
      refine ⟨?_, ih 0 (noDel_tail h)⟩
      rw [wsThenNl_collapseGo_zero]
      simp only [noDel, Bool.and_eq_true] at h
      exact h.1

theorem has3Nl_cons_of {rest : List Char} (a : Char) (h : has3Nl rest = true) :
    has3Nl (a :: rest) = true := by
  match rest with
  | [] => simp [has3Nl] at h
  | [b] => simp [has3Nl] at h
  | b :: c :: rest' =>
    rw [has3Nl, h]
    simp

theorem has3Nl_cons_ne {c : Char} (hc : ¬ c = '\n') (X : List Char) :
    has3Nl (c :: X) = has3Nl X := by
  match X with
  | [] => rfl
  | [a] => simp [has3Nl]
  | a :: b :: r =>
    rw [has3Nl]
    simp [hc]

theorem has3Nl_append_right {l₂ : List Char} (l₁ : List Char) (h : has3Nl l₂ = true) :
    has3Nl (l₁ ++ l₂) = true := by
  induction l₁ with
  | nil => simpa using h
  | cons a rest ih => exact has3Nl_cons_of a ih

theorem has3Nl_append_left {l₁ : List Char} (l₂ : List Char) (h : has3Nl l₁ = true) :
    has3Nl (l₁ ++ l₂) = true := by
  induction l₁ with
  | nil => simp [has3Nl] at h
  | cons a rest ih =>
    match rest, ih with
    | b :: c :: r', ih =>
      rw [has3Nl] at h
      rcases (by simpa using h) with h1 | h1
      · obtain ⟨⟨rfl, rfl⟩, rfl⟩ : (a = '\n' ∧ b = '\n') ∧ c = '\n' := by simpa using h1
        rw [List.cons_append, List.cons_append, List.cons_append, has3Nl]
        simp
      · exact has3Nl_cons_of a (ih h1)
    | [], ih => simp [has3Nl] at h
    | [b], ih => simp [has3Nl] at h

theorem has3Nl_replicate_le2 {m : Nat} (hm : m ≤ 2) :
    has3Nl (List.replicate m '\n') = false := by
  match m, hm with
  | 0, _ => rfl
  | 1, _ => rfl
  | 2, _ => rfl

theorem has3Nl_nl_cons {c : Char} (hc : ¬ c = '\n') {r : List Char}
    (h : has3Nl (c :: r) = false) : has3Nl ('\n' :: c :: r) = false := by
  cases r with
  | nil => rfl
  | cons d r' =>
    rw [has3Nl]
    simp [hc, h]

theorem has3Nl_replicate_cons {m : Nat} (hm : m ≤ 2) {c : Char} (hc : ¬ c = '\n')
    {r : List Char} (h : has3Nl r = false) :
    has3Nl (List.replicate m '\n' ++ c :: r) = false := by
  have hcr : has3Nl (c :: r) = false := by rw [has3Nl_cons_ne hc]; exact h
  match m, hm with
  | 0, _ => exact hcr
  | 1, _ =>
    show has3Nl ('\n' :: c :: r) = false
    exact has3Nl_nl_cons hc hcr
  | 2, _ =>
    show has3Nl ('\n' :: '\n' :: c :: r) = false
    rw [has3Nl]
    simp [hc, has3Nl_nl_cons hc hcr]

theorem has3Nl_collapseGo (l : List Char) : ∀ k, has3Nl (collapseGo k l) = false := by
  induction l with
  | nil =>
    intro k
    rw [collapseGo]
    exact has3Nl_replicate_le2 (by split <;> omega)
  | cons c rest ih =>
    intro k
    rw [collapseGo]
    split
    case isTrue hc => exact ih (k + 1)
    case isFalse hc =>
      refine has3Nl_replicate_cons (by split <;> omega) hc ?_
      exact ih 0

theorem replicate_append_cons (k : Nat) (a : Char) (r : List Char) :
    List.replicate k a ++ a :: r = List.replicate (k + 1) a ++ r := by
  rw [List.replicate_succ', List.append_assoc, List.singleton_append]

theorem collapseGo_eq_self (l : List Char) :
    ∀ k, k ≤ 2 → has3Nl (List.replicate k '\n' ++ l) = false →
    collapseGo k l = List.replicate k '\n' ++ l := by
  induction l with
  | nil =>
    intro k hk _
    rw [collapseGo, if_neg (by omega), List.append_nil]
  | cons c rest ih =>
    intro k hk h
    rw [collapseGo]
    split
    case isTrue hc =>
      subst hc
      have hk1 : k ≤ 1 := by
        rcases Nat.lt_or_ge k 2 with hlt | hge
        · omega
        · exfalso
          have hk2 : k = 2 := by omega
          subst hk2
          rw [show List.replicate 2 '\n' ++ '\n' :: rest = '\n' :: '\n' :: '\n' :: rest by rfl,
              has3Nl] at h
          simp at h
      rw [ih (k + 1) (by omega) (by rw [← replicate_append_cons]; exact h)]
      rw [replicate_append_cons]
    case isFalse hc =>
      have hrest : has3Nl (c :: rest) = false := by
        have hx : has3Nl (c :: rest) = true → has3Nl (List.replicate k '\n' ++ c :: rest) = true :=
          has3Nl_append_right _
        cases hy : has3Nl (c :: rest)
        · rfl
        · rw [hx hy] at h; exact h
      rw [has3Nl_cons_ne hc] at hrest
      rw [if_neg (show ¬ 3 ≤ k by omega), ih 0 (by omega) (by simpa using hrest)]
      simp

theorem collapseNl_eq_self {l : List Char} (h : has3Nl l = false) : collapseNl l = l := by
  have := collapseGo_eq_self l 0 (by omega) (by simpa using h)
  simpa [collapseNl] using this

/- ======================================================
   Lemmas: the CRLF pass and membership facts
   ====================================================== -/

theorem hasCRLF_cons_of {rest : List Char} (a : Char) (h : hasCRLF rest = true) :
    hasCRLF (a :: rest) = true := by
  match rest with
  | [] => simp [hasCRLF] at h
  | b :: r =>
    rw [hasCRLF, h]
    simp

theorem hasCRLF_cons_ne {a : Char} (ha : ¬ a = '\r') (X : List Char) :
    hasCRLF (a :: X) = hasCRLF X := by
  match X with
  | [] => rfl
  | b :: r =>
    rw [hasCRLF]
    simp [ha]

theorem hasCRLF_append_right {l₂ : List Char} (l₁ : List Char) (h : hasCRLF l₂ = true) :
    hasCRLF (l₁ ++ l₂) = true := by
  induction l₁ with
  | nil => simpa using h
  | cons a rest ih => exact hasCRLF_cons_of a ih

theorem hasCRLF_append_left {l₁ : List Char} (l₂ : List Char) (h : hasCRLF l₁ = true) :
    hasCRLF (l₁ ++ l₂) = true := by
  induction l₁ with
  | nil => simp [hasCRLF] at h
  | cons a rest ih =>
    match rest, ih with
    | b :: r', ih =>
      rw [hasCRLF] at h
      rcases (by simpa using h : (a = '\r' ∧ b = '\n') ∨ hasCRLF (b :: r') = true) with h1 | h1
      · obtain ⟨rfl, rfl⟩ := h1
        rw [List.cons_append, List.cons_append, hasCRLF]
        simp
      · exact hasCRLF_cons_of a (ih h1)
    | [], ih => simp [hasCRLF] at h

theorem hasCRLF_eq_false_of_not_mem {l : List Char} (h : '\r' ∉ l) : hasCRLF l = false := by
  induction l with
  | nil => rfl
  | cons a rest ih =>
    have ha : ¬ a = '\r' := by
      intro he
      subst he
      exact h (List.mem_cons_self _ _)
    rw [hasCRLF_cons_ne ha]
    exact ih (fun hm => h (List.mem_cons_of_mem a hm))

theorem repCRLF_eq_self {l : List Char} (h : hasCRLF l = false) : repCRLF l = l := by
  induction l using repCRLF.induct with
  | case1 rest ih =>
    rw [hasCRLF] at h
    simp at h
  | case2 c rest hne ih =>
    rw [repCRLF.eq_2 c rest hne]
    congr 1
    apply ih
    cases rest with
    | nil => rfl
    | cons b r' =>
      cases hy : hasCRLF (b :: r')
      · rfl
      · rw [hasCRLF, hy] at h
        simp at h
  | case3 => rfl

theorem mem_repCRLF {a : Char} {l : List Char} (h : a ∈ repCRLF l) : a = '\n' ∨ a ∈ l := by
  induction l using repCRLF.induct with
  | case1 rest ih =>
    rw [repCRLF.eq_1] at h
    rcases List.mem_cons.mp h with rfl | h2
    · exact Or.inl rfl
    · rcases ih h2 with h3 | h3
      · exact Or.inl h3
      · exact Or.inr (by simp [h3])
  | case2 c rest hne ih =>
    rw [repCRLF.eq_2 c rest hne] at h
    rcases List.mem_cons.mp h with rfl | h2
    · exact Or.inr (List.mem_cons_self _ _)
    · rcases ih h2 with h3 | h3
      · exact Or.inl h3
      · exact Or.inr (List.mem_cons_of_mem _ h3)
  | case3 => simp [repCRLF] at h

theorem crPaired_not_mem_repCRLF {l : List Char} (h : crPaired l = true) :
    '\r' ∉ repCRLF l := by
  induction l using repCRLF.induct with
  | case1 rest ih =>
    have h2 : crPaired rest = true := by
      simp only [crPaired] at h
      simp at h
      exact h
    rw [repCRLF.eq_1]
    intro hmem
    rcases List.mem_cons.mp hmem with he | hmem2
    · exact absurd he (by decide)
    · exact ih h2 hmem2
  | case2 c rest hne ih =>
    by_cases hc : c = '\r'
    · exfalso
      subst hc
      have hh : ¬ rest.head? = some '\n' := by
        intro hh
        cases rest with
        | nil => simp at hh
        | cons b r' =>
          have hb : b = '\n' := by simpa using hh
          exact hne r' rfl (by rw [hb])
      rw [crPaired] at h
      simp only [bne_self_eq_false, Bool.false_or, Bool.and_eq_true, decide_eq_true_eq] at h
      exact hh h.1
    · have h2 : crPaired rest = true := by
        rw [crPaired] at h
        have hcb : (c != '\r') = true := by simpa using hc
        rw [hcb] at h
        simpa using h
      rw [repCRLF.eq_2 c rest hne]
      intro hmem
      rcases List.mem_cons.mp hmem with he | hmem2
      · exact hc he.symm
      · exact ih h2 hmem2
  | case3 => simp [repCRLF]

theorem mem_stripWsNl {a : Char} {l : List Char} (h : a ∈ stripWsNl l) : a ∈ l := by
  induction l with
  | nil => simp [stripWsNl] at h
  | cons c rest ih =>
    rw [stripWsNl] at h
    split at h
    · exact List.mem_cons_of_mem c (ih h)
    · rcases List.mem_cons.mp h with rfl | h2
      · exact List.mem_cons_self _ _
      · exact List.mem_cons_of_mem c (ih h2)

theorem mem_collapseGo {a : Char} {l : List Char} :
    ∀ k, a ∈ collapseGo k l → a = '\n' ∨ a ∈ l := by
  induction l with
  | nil =>
    intro k h
    rw [collapseGo] at h
    exact Or.inl (List.eq_of_mem_replicate h)
  | cons c rest ih =>
    intro k h
    rw [collapseGo] at h
    split at h
    case isTrue hc =>
      rcases ih (k + 1) h with h1 | h1
      · exact Or.inl h1
      · exact Or.inr (List.mem_cons_of_mem c h1)
    case isFalse hc =>
      rcases List.mem_append.mp h with h1 | h1
      · exact Or.inl (List.eq_of_mem_replicate h1)
      · rcases List.mem_cons.mp h1 with rfl | h2
        · exact Or.inr (List.mem_cons_self _ _)
        · rcases ih 0 h2 with h3 | h3
          · exact Or.inl h3
          · exact Or.inr (List.mem_cons_of_mem c h3)

theorem mem_trimLeft {a : Char} {l : List Char} (h : a ∈ trimLeft l) : a ∈ l := by
  have hx : a ∈ l.takeWhile isJsWs ++ l.dropWhile isJsWs := List.mem_append_right _ h
  rwa [List.takeWhile_append_dropWhile] at hx

theorem mem_trimRight {a : Char} {l : List Char} (h : a ∈ trimRight l) : a ∈ l := by
  have hx : a ∈ trimRight l ++ (l.reverse.takeWhile isJsWs).reverse :=
    List.mem_append_left _ h
  rwa [trimRight_append_eq] at hx

theorem mem_jsTrim {a : Char} {l : List Char} (h : a ∈ jsTrim l) : a ∈ l :=
  mem_trimLeft (mem_trimRight h)

theorem repCRLF_of_no_cr {l : List Char} (h : '\r' ∉ l) : repCRLF l = l :=
  repCRLF_eq_self (hasCRLF_eq_false_of_not_mem h)

/- ======================================================
   Lemmas: the trim pass
   ====================================================== -/

theorem dropWhile_head_false (p : Char → Bool) (l : List Char) :
    ∀ a, (l.dropWhile p).head? = some a → p a = false := by
  induction l with
  | nil => intro a h; simp at h
  | cons c rest ih =>
    intro a h
    rw [List.dropWhile_cons] at h
    split at h
    · exact ih a h
    case isFalse hp =>
      have hca : c = a := by simpa using h
      subst hca
      cases hq : p c
      · rfl
      · exact absurd hq hp

theorem dropWhile_of_head_false (p : Char → Bool) (l : List Char)
    (h : ∀ a, l.head? = some a → p a = false) : l.dropWhile p = l := by
  cases l with
  | nil => rfl
  | cons c rest =>
    rw [List.dropWhile_cons, if_neg]
    rw [h c (by rfl)]
    simp

theorem head?_append_left {l₁ : List Char} (l₂ : List Char) (h : l₁ ≠ []) :
    (l₁ ++ l₂).head? = l₁.head? := by
  cases l₁ with
  | nil => exact absurd rfl h
  | cons c rest => rfl

theorem trimRight_trimRight (l : List Char) : trimRight (trimRight l) = trimRight l := by
  show ((trimRight l).reverse.dropWhile isJsWs).reverse = trimRight l
  rw [show (trimRight l).reverse = l.reverse.dropWhile isJsWs by
        rw [trimRight, List.reverse_reverse]]
  rw [List.dropWhile_idempotent, ← trimRight]

theorem trimLeft_trimRight_trimLeft (l : List Char) :
    trimLeft (trimRight (trimLeft l)) = trimRight (trimLeft l) := by
  apply dropWhile_of_head_false
  intro a h
  rcases hx : trimRight (trimLeft l) with _ | ⟨b, r⟩
  · rw [hx] at h; simp at h
  · have hne : trimRight (trimLeft l) ≠ [] := by rw [hx]; simp
    have h1 : (trimLeft l).head? = some a := by
      rw [← trimRight_append_eq (trimLeft l), head?_append_left _ hne, h]
    exact dropWhile_head_false isJsWs l a h1

theorem jsTrim_jsTrim (l : List Char) : jsTrim (jsTrim l) = jsTrim l := by
  show trimRight (trimLeft (trimRight (trimLeft l))) = trimRight (trimLeft l)
  rw [trimLeft_trimRight_trimLeft, trimRight_trimRight]

theorem has3Nl_trimLeft_false {l : List Char} (h : has3Nl l = false) :
    has3Nl (trimLeft l) = false := by
  cases hy : has3Nl (trimLeft l)
  · rfl
  · have hx := has3Nl_append_right (l.takeWhile isJsWs) hy
    simp only [trimLeft] at hx
    rw [List.takeWhile_append_dropWhile] at hx
    rw [hx] at h
    exact h

theorem has3Nl_trimRight_false {l : List Char} (h : has3Nl l = false) :
    has3Nl (trimRight l) = false := by
  cases hy : has3Nl (trimRight l)
  · rfl
  · have hx := has3Nl_append_left ((l.reverse.takeWhile isJsWs).reverse) hy
    rw [trimRight_append_eq] at hx
    rw [hx] at h
    exact h

theorem has3Nl_jsTrim_false {l : List Char} (h : has3Nl l = false) :
    has3Nl (jsTrim l) = false :=
  has3Nl_trimRight_false (has3Nl_trimLeft_false h)

/- ======================================================
   Lemmas: properties of the full normalization
   ====================================================== -/

theorem noDel_normalize (l : List Char) : noDel (normalizeExtractedText l) = true := by
  show noDel (jsTrim (collapseGo 0 (stripWsNl (repCRLF l)))) = true
  exact noDel_jsTrim (noDel_collapseGo _ 0 (noDel_stripWsNl _))

theorem has3Nl_normalize (l : List Char) : has3Nl (normalizeExtractedText l) = false := by
  show has3Nl (jsTrim (collapseGo 0 (stripWsNl (repCRLF l)))) = false
  exact has3Nl_jsTrim_false (has3Nl_collapseGo _ 0)

theorem jsTrim_normalize (l : List Char) :
    jsTrim (normalizeExtractedText l) = normalizeExtractedText l :=
  jsTrim_jsTrim _

theorem not_mem_cr_normalize {l : List Char} (h : '\r' ∉ l) :
    '\r' ∉ normalizeExtractedText l := by
  intro hm
  have h1 : '\r' ∈ collapseGo 0 (stripWsNl (repCRLF l)) := mem_jsTrim hm
  rcases mem_collapseGo 0 h1 with h2 | h2
  · exact absurd h2 (by decide)
  · rcases mem_repCRLF (mem_stripWsNl h2) with h3 | h3
    · exact absurd h3 (by decide)
    · exact h h3

/- ======================================================
   Claims C5 and C10: the normalization function
   ====================================================== -/

/-- Claim C5, counterexample.  The claim says the normalization function
converts all line terminators to a single convention (CRLF to LF); on
the input `"a\r\r\nb"` the single left-to-right replacement pass leaves
the output `"a\r\nb"`, which still contains a CRLF pair, because the
kept CR becomes adjacent to the LF produced by the replacement. -/
theorem normalize_crlf_residual :
    normalizeExtractedText "a\r\r\nb".data = "a\r\nb".data ∧
    hasCRLF (normalizeExtractedText "a\r\r\nb".data) = true := by
  constructor
  · decide
  · decide

/-- Claim C5 (amended): for every input string the normalization result
has no space or tab immediately before a line feed, has no run of three
or more consecutive line feeds, is trimmed of leading and trailing
whitespace, and — provided every carriage return of the input is
immediately followed by a line feed — contains no CRLF pair (a CR not
directly before an LF can survive as a residual CRLF, as the
counterexample shows). -/
theorem normalize_amended_clauses (l : List Char) :
    hasSpTabNl (normalizeExtractedText l) = false ∧
    has3Nl (normalizeExtractedText l) = false ∧
    jsTrim (normalizeExtractedText l) = normalizeExtractedText l ∧
    (crPaired l = true → hasCRLF (normalizeExtractedText l) = false) := by
  refine ⟨hasSpTabNl_eq_false_of_noDel (noDel_normalize l), has3Nl_normalize l,
    jsTrim_normalize l, fun hcr => ?_⟩
  apply hasCRLF_eq_false_of_not_mem
  intro hm
  have h1 : '\r' ∈ collapseGo 0 (stripWsNl (repCRLF l)) := mem_jsTrim hm
  rcases mem_collapseGo 0 h1 with h2 | h2
  · exact absurd h2 (by decide)
  · exact crPaired_not_mem_repCRLF hcr (mem_stripWsNl h2)

/-- Claim C5, witness: the amended theorem applied to a concrete input
whose carriage returns are all paired. -/
theorem normalize_amended_clauses_witness :
    crPaired "ab\r\ncd \t\n\n\n\n e".data = true ∧
    hasCRLF (normalizeExtractedText "ab\r\ncd \t\n\n\n\n e".data) = false :=
  ⟨by decide, (normalize_amended_clauses _).2.2.2 (by decide)⟩

/-- Claim C10, counterexample.  Normalization is not idempotent: on
`"a\r\r\nb"` one application yields `"a\r\nb"` and a second application
yields `"a\nb"`. -/
theorem normalize_not_idem :
    ¬ normalizeExtractedText (normalizeExtractedText "a\r\r\nb".data) =
        normalizeExtractedText "a\r\r\nb".data := by
  decide

/-- Claim C10 (amended): the normalization function is idempotent on
every input that contains no carriage return. -/
theorem normalize_idem_of_no_cr {l : List Char} (h : '\r' ∉ l) :
    normalizeExtractedText (normalizeExtractedText l) = normalizeExtractedText l := by
  conv_lhs => rw [normalizeExtractedText]
  rw [repCRLF_of_no_cr (not_mem_cr_normalize h),
      stripWsNl_eq_self (noDel_normalize l),
      collapseNl_eq_self (has3Nl_normalize l),
      jsTrim_normalize l]

/-- Claim C10, witness: idempotence at a concrete carriage-return-free
input. -/
theorem normalize_idem_of_no_cr_witness :
    normalizeExtractedText (normalizeExtractedText "a \t\n\n\n\nb ".data) =
      normalizeExtractedText "a \t\n\n\n\nb ".data :=
  normalize_idem_of_no_cr (by decide)

/- ======================================================
   Claims C6 and C7: result assembly
   ====================================================== -/

theorem assembleGo_true_eq_markerConcat (rs : List (List Char)) :
    ∀ i, assembleGo true i rs = markerConcat (i + 1) rs := by
  induction rs with
  | nil => intro i; rfl
  | cons r rest ih =>
    intro i
    rw [assembleGo, markerConcat, ih (i + 1)]
    simp [pageChunk, List.append_assoc]

theorem assembleGo_false_pos (rs : List (List Char)) :
    ∀ i, ¬ i = 0 → assembleGo false i rs = (rs.map (fun r => "\n\n".data ++ r)).flatten := by
  induction rs with
  | nil => intro i _; rfl
  | cons r rest ih =>
    intro i hi
    rw [assembleGo, ih (i + 1) (by omega)]
    simp [pageChunk, hi]

theorem blankJoin_cons (rest : List (List Char)) :
    ∀ r, blankJoin (r :: rest) = r ++ (rest.map (fun x => "\n\n".data ++ x)).flatten := by
  induction rest with
  | nil => intro r; simp [blankJoin]
  | cons r₂ rest' ih =>
    intro r
    rw [show blankJoin (r :: r₂ :: rest') = r ++ "\n\n".data ++ blankJoin (r₂ :: rest')
          from rfl,
        ih r₂]
    simp [List.append_assoc]

/-- Claim C6: with page markers enabled, a 1-page run whose recognized
text is `"Hello"` assembles to exactly `"===== PAGE 1 =====\n\nHello"`,
and in general the result is the trim of the concatenation, in ascending
page order with no extra separator, of the literal marker for page `k`
followed by that page's text. -/
theorem marker_mode_format :
    resultText true ["Hello".data] = "===== PAGE 1 =====\n\nHello".data ∧
    ∀ rs : List (List Char), resultText true rs = jsTrim (markerConcat 1 rs) := by
  constructor
  · decide
  · intro rs
    show jsTrim (assembleGo true 0 rs) = jsTrim (markerConcat 1 rs)
    rw [assembleGo_true_eq_markerConcat rs 0]

/-- Claim C7: with page markers disabled, the three pages `"A"`, `""`,
`"C"` assemble, before the final trim, to exactly `"A\n\n\n\nC"` — the
empty middle page contributes only its separators; normalization of an
empty recognized text is the empty string (no error path exists, the
assembly is total); and in general non-marker assembly joins pages with
a single blank line. -/
theorem nonmarker_assembly :
    assembleText false ["A".data, "".data, "C".data] = "A\n\n\n\nC".data ∧
    normalizeExtractedText "".data = "".data ∧
    ∀ rs : List (List Char), assembleText false rs = blankJoin rs := by
  refine ⟨by decide, by decide, ?_⟩
  intro rs
  cases rs with
  | nil => rfl
  | cons r rest =>
    show assembleGo false 0 (r :: rest) = blankJoin (r :: rest)
    rw [assembleGo, assembleGo_false_pos rest 1 (by omega), blankJoin_cons rest r]
    simp [pageChunk]

/- ======================================================
   Lemmas: list bookkeeping for the transition systems
   ====================================================== -/

theorem lt_of_get?_eq_some {α : Type} {l : List α} {i : Nat} {a : α}
    (h : l.get? i = some a) : i < l.length := by
  obtain ⟨hlt, _⟩ := List.get?_eq_some.mp h
  exact hlt

theorem get?_append_lt {α : Type} (l₁ l₂ : List α) (n : Nat) (h : n < l₁.length) :
    (l₁ ++ l₂).get? n = l₁.get? n := by
  induction l₁ generalizing n with
  | nil => simp at h
  | cons a rest ih =>
    cases n with
    | zero => rfl
    | succ m => simpa using ih m (by simpa using h)

theorem countRunning_cons (x : GPhase) (rest : List GPhase) :
    countRunning (x :: rest) = countRunning rest + (if x = GPhase.running then 1 else 0) := by
  cases x <;> simp [countRunning]

theorem countRunning_append (l₁ l₂ : List GPhase) :
    countRunning (l₁ ++ l₂) = countRunning l₁ + countRunning l₂ := by
  induction l₁ with
  | nil => simp [countRunning]
  | cons x rest ih =>
    rw [List.cons_append, countRunning_cons, countRunning_cons, ih]
    omega

theorem countRunning_set (l : List GPhase) :
    ∀ (i : Nat) (a b : GPhase), l.get? i = some a →
    countRunning (l.set i b) + (if a = GPhase.running then 1 else 0) =
      countRunning l + (if b = GPhase.running then 1 else 0) := by
  induction l with
  | nil => intro i a b h; simp at h
  | cons c rest ih =>
    intro i a b h
    cases i with
    | zero =>
      obtain rfl : c = a := by simpa using h
      show countRunning (b :: rest) + _ = _
      rw [countRunning_cons, countRunning_cons]
      omega
    | succ n =>
      show countRunning (c :: rest.set n b) + _ = _
      rw [countRunning_cons, countRunning_cons]
      have hx := ih n a b (by simpa using h)
      omega

theorem countRunning_pos (l : List GPhase) :
    ∀ i, l.get? i = some GPhase.running → 1 ≤ countRunning l := by
  induction l with
  | nil => intro i h; simp at h
  | cons x rest ih =>
    intro i h
    cases i with
    | zero =>
      obtain rfl : x = GPhase.running := by simpa using h
      rw [countRunning_cons]
      simp
    | succ n =>
      rw [countRunning_cons]
      have hx := ih n (by simpa using h)
      omega

/- ======================================================
   Lemmas: the concurrency limiter (Claim C1)
   ====================================================== -/

theorem gateInv_of_reach {max : Nat} {s : GateState} (h : GateReach max s) :
    s.active = countRunning s.phases ∧ s.active ≤ max ∧
    (∀ j ∈ s.queue, s.phases.get? j = some GPhase.waiting) ∧ s.queue.Nodup := by
  induction h with
  | refl =>
    refine ⟨rfl, Nat.zero_le _, ?_, List.nodup_nil⟩
    intro j hj
    simp [GateState.init] at hj
  | @tail b c hr hstep ih =>
    obtain ⟨ihc, ihm, ihq, ihn⟩ := ih
    cases hstep with
    | submit =>
      refine ⟨?_, ihm, ?_, ihn⟩
      · show b.active = countRunning (b.phases ++ [GPhase.checking])
        rw [countRunning_append, countRunning_cons]
        simp [countRunning, ihc]
      · intro j hj
        have hw := ihq j hj
        show (b.phases ++ [GPhase.checking]).get? j = some GPhase.waiting
        rw [get?_append_lt _ _ _ (lt_of_get?_eq_some hw)]
        exact hw
    | acquire i hi hlt =>
      have hset := countRunning_set b.phases i GPhase.checking GPhase.running hi
      simp at hset
      refine ⟨?_, ?_, ?_, ihn⟩
      · show b.active + 1 = countRunning (b.phases.set i GPhase.running)
        omega
      · show b.active + 1 ≤ max
        omega
      · intro j hj
        have hw := ihq j hj
        have hne : i ≠ j := by
          intro he
          rw [he, hw] at hi
          exact absurd hi (by simp)
        show (b.phases.set i GPhase.running).get? j = some GPhase.waiting
        rw [List.get?_set_ne _ _ hne]
        exact hw
    | block i hi hge =>
      have hset := countRunning_set b.phases i GPhase.checking GPhase.waiting hi
      simp at hset
      have hiq : i ∉ b.queue := by
        intro hmem
        have hw := ihq i hmem
        rw [hw] at hi
        exact absurd hi (by simp)
      refine ⟨?_, ihm, ?_, ?_⟩
      · show b.active = countRunning (b.phases.set i GPhase.waiting)
        omega
      · intro j hj
        show (b.phases.set i GPhase.waiting).get? j = some GPhase.waiting
        rcases List.mem_append.mp hj with hj1 | hj2
        · have hw := ihq j hj1
          have hne : i ≠ j := by
            intro he
            rw [he, hw] at hi
            exact absurd hi (by simp)
          rw [List.get?_set_ne _ _ hne]
          exact hw
        · obtain rfl : j = i := by simpa using hj2
          rw [List.get?_set_eq_of_lt _ (lt_of_get?_eq_some hi)]
      · refine List.Nodup.append ihn (List.nodup_singleton i) ?_
        intro a ha hb
        have hai : a = i := by simpa using hb
        subst hai
        exact hiq ha
    | finishNoWake i ok hi hq =>
      have hset := countRunning_set b.phases i GPhase.running GPhase.done hi
      simp at hset
      have hpos := countRunning_pos b.phases i hi
      refine ⟨?_, ?_, ?_, List.nodup_nil⟩
      · show b.active - 1 = countRunning (b.phases.set i GPhase.done)
        omega
      · show b.active - 1 ≤ max
        omega
      · intro j hj
        simp at hj
    | finishWake i j q' ok hi hq =>
      have hset := countRunning_set b.phases i GPhase.running GPhase.done hi
      have hpos := countRunning_pos b.phases i hi
      have hjw : b.phases.get? j = some GPhase.waiting := ihq j (by rw [hq]; simp)
      have hij : i ≠ j := by
        intro he
        rw [he, hjw] at hi
        exact absurd hi (by simp)
      have hjd : (b.phases.set i GPhase.done).get? j = some GPhase.waiting := by
        rw [List.get?_set_ne _ _ hij]
        exact hjw
      have hset2 := countRunning_set (b.phases.set i GPhase.done) j GPhase.waiting
        GPhase.checking hjd
      simp at hset hset2
      have hnod : (j :: q').Nodup := hq ▸ ihn
      refine ⟨?_, ?_, ?_, (List.nodup_cons.mp hnod).2⟩
      · show b.active - 1 =
          countRunning ((b.phases.set i GPhase.done).set j GPhase.checking)
        omega
      · show b.active - 1 ≤ max
        omega
      · intro j' hj'
        have hj'mem : j' ∈ b.queue := by
          rw [hq]
          exact List.mem_cons_of_mem j hj'
        have hw := ihq j' hj'mem
        have hne_i : i ≠ j' := by
          intro he
          rw [he, hw] at hi
          exact absurd hi (by simp)
        have hne_j : j ≠ j' := by
          intro he
          exact (List.nodup_cons.mp hnod).1 (he ▸ hj')
        show ((b.phases.set i GPhase.done).set j GPhase.checking).get? j' =
          some GPhase.waiting
        rw [List.get?_set_ne _ _ hne_j, List.get?_set_ne _ _ hne_i]
        exact hw

/-- Claim C1: for every limiter with bound `L ≥ 1`, in every reachable
state under any arrival pattern the `active` counter equals the number
of calls holding a permit and never exceeds `L`; moreover every call
holding a permit can always release it — by the same transition whether
`fn` returned normally or threw (`ok` is either outcome) — decrementing
`active` and leaving the call released. -/
theorem gate_limit_invariant (L : Nat) (hL : 1 ≤ L) (s : GateState) (h : GateReach L s) :
    s.active = countRunning s.phases ∧ s.active ≤ L ∧
    (∀ (i : Nat) (ok : Bool), s.phases.get? i = some GPhase.running →
      ∃ s', GateStep L s s' ∧ s'.active + 1 = s.active ∧
        s'.phases.get? i = some GPhase.done) := by
  obtain ⟨hc, hm, hqw, _⟩ := gateInv_of_reach h
  refine ⟨hc, hm, ?_⟩
  intro i ok hi
  have hpos : 1 ≤ s.active := by
    rw [hc]
    exact countRunning_pos s.phases i hi
  cases hqc : s.queue with
  | nil =>
    refine ⟨_, GateStep.finishNoWake s i ok hi hqc,
      by show s.active - 1 + 1 = s.active; omega, ?_⟩
    show (s.phases.set i GPhase.done).get? i = some GPhase.done
    rw [List.get?_set_eq_of_lt _ (lt_of_get?_eq_some hi)]
  | cons j q' =>
    have hjw : s.phases.get? j = some GPhase.waiting := hqw j (by rw [hqc]; simp)
    have hij : i ≠ j := by
      intro he
      rw [he, hjw] at hi
      exact absurd hi (by simp)
    refine ⟨_, GateStep.finishWake s i j q' ok hi hqc,
      by show s.active - 1 + 1 = s.active; omega, ?_⟩
    show ((s.phases.set i GPhase.done).set j GPhase.checking).get? i = some GPhase.done
    rw [List.get?_set_ne _ _ (Ne.symm hij), List.get?_set_eq_of_lt _ (lt_of_get?_eq_some hi)]

/-- Claim C1, witness: the invariant applied with limit 1 to the state
reached after submitting one call. -/
theorem gate_limit_invariant_witness :
    (1 : Nat) ≤ 1 ∧ (⟨0, [], [GPhase.checking]⟩ : GateState).active ≤ 1 :=
  ⟨by decide,
    (gate_limit_invariant 1 (by decide) ⟨0, [], [GPhase.checking]⟩
      (Relation.ReflTransGen.single (GateStep.submit GateState.init))).2.1⟩

/- ======================================================
   Lemmas: the pipeline transition system (Claims C2 and C4)
   ====================================================== -/

theorem get?_set_cases {α : Type} (l : List α) (n : Nat) (a : α) :
    (l.set n a).get? n = some a ∨ (l.set n a).get? n = none := by
  rcases Nat.lt_or_ge n l.length with h | h
  · exact Or.inl (List.get?_set_eq_of_lt _ h)
  · right
    rw [List.get?_eq_none]
    simpa using h

theorem get?_replicate {α : Type} (a : α) (n i : Nat) :
    (List.replicate n a).get? i = if i < n then some a else none := by
  induction n generalizing i with
  | zero => simp
  | succ m ih =>
    cases i with
    | zero => simp [List.replicate_succ]
    | succ k =>
      rw [List.replicate_succ]
      show (List.replicate m a).get? k = _
      rw [ih k]
      by_cases hk : k < m
      · rw [if_pos hk, if_pos (by omega)]
      · rw [if_neg hk, if_neg (by omega)]

theorem pipeSig_inv {eLim oLim n : Nat} {f : Nat → List Char} {s : PipeState}
    (h : PipeReach eLim oLim f n s) :
    ∀ i, ocrBegun (s.ocr.get? i) = true → s.sig.get? i = some true := by
  induction h with
  | refl =>
    intro i hb
    exfalso
    replace hb : ocrBegun ((List.replicate n OcrPhase.idle).get? i) = true := hb
    rw [get?_replicate] at hb
    split at hb
    · exact absurd hb (by decide)
    · exact absurd hb (by decide)
  | @tail b c hr hstep ih =>
    cases hstep with
    | eAcquire i₀ hi hlt => exact ih
    | eBlock i₀ hi hge => exact ih
    | eResolve i₀ hi =>
      intro i hb
      have hold := ih i hb
      show (b.sig.set i₀ true).get? i = some true
      by_cases hii : i₀ = i
      · subst hii
        rw [List.get?_set_eq_of_lt _ (lt_of_get?_eq_some hold)]
      · rw [List.get?_set_ne _ _ hii]
        exact hold
    | eReleaseNoWake i₀ hi hq => exact ih
    | eReleaseWake i₀ j q' hi hq => exact ih
    | oAcquire i₀ hi hlt =>
      intro i hb
      replace hb : ocrBegun ((b.ocr.set i₀ OcrPhase.holding).get? i) = true := hb
      show b.sig.get? i = some true
      by_cases hii : i₀ = i
      · subst hii
        rcases get?_set_cases b.ocr i₀ OcrPhase.holding with hx | hx <;>
          rw [hx] at hb <;> exact absurd hb (by decide)
      · rw [List.get?_set_ne _ _ hii] at hb
        exact ih i hb
    | oBlock i₀ hi hge =>
      intro i hb
      replace hb : ocrBegun ((b.ocr.set i₀ OcrPhase.queued).get? i) = true := hb
      show b.sig.get? i = some true
      by_cases hii : i₀ = i
      · subst hii
        rcases get?_set_cases b.ocr i₀ OcrPhase.queued with hx | hx <;>
          rw [hx] at hb <;> exact absurd hb (by decide)
      · rw [List.get?_set_ne _ _ hii] at hb
        exact ih i hb
    | oStart i₀ hi hsig =>
      intro i hb
      replace hb : ocrBegun ((b.ocr.set i₀ OcrPhase.started).get? i) = true := hb
      show b.sig.get? i = some true
      by_cases hii : i₀ = i
      · subst hii
        exact hsig
      · rw [List.get?_set_ne _ _ hii] at hb
        exact ih i hb
    | oFinishNoWake i₀ hi hq =>
      intro i hb
      replace hb : ocrBegun ((b.ocr.set i₀ OcrPhase.done).get? i) = true := hb
      show b.sig.get? i = some true
      by_cases hii : i₀ = i
      · subst hii
        exact ih i₀ (by rw [hi]; rfl)
      · rw [List.get?_set_ne _ _ hii] at hb
        exact ih i hb
    | oFinishWake i₀ j q' hi hq =>
      intro i hb
      replace hb :
          ocrBegun (((b.ocr.set i₀ OcrPhase.done).set j OcrPhase.idle).get? i) = true := hb
      show b.sig.get? i = some true
      by_cases hij : j = i
      · subst hij
        exfalso
        rcases get?_set_cases (b.ocr.set i₀ OcrPhase.done) j OcrPhase.idle with hx | hx <;>
          rw [hx] at hb <;> exact absurd hb (by decide)
      · rw [List.get?_set_ne _ _ hij] at hb
        by_cases hii : i₀ = i
        · subst hii
          exact ih i₀ (by rw [hi]; rfl)
        · rw [List.get?_set_ne _ _ hii] at hb
          exact ih i hb

theorem pipe_trace_two_pages :
    PipeReach 1 1 (fun _ => []) 2
      ⟨1, [], [EnhPhase.resolved, EnhPhase.idle], 1, [],
        [OcrPhase.started, OcrPhase.idle], [true, false],
        [Option.none, Option.none]⟩ := by
  refine Relation.ReflTransGen.head
    (PipeStep.eAcquire (PipeState.init 2) 0 (by decide) (by decide)) ?_
  refine Relation.ReflTransGen.head (PipeStep.eResolve _ 0 (by decide)) ?_
  refine Relation.ReflTransGen.head (PipeStep.oAcquire _ 0 (by decide) (by decide)) ?_
  exact Relation.ReflTransGen.single (PipeStep.oStart _ 0 (by decide) (by decide))

/-- Claim C2: in every reachable state of the pipeline, for every page
index `i`, if the OCR task of page `i` has begun (or finished) its
recognition call then page `i`'s one-shot signal has fired — and this is
not because recognition waits for all enhancements: with limits 1 and 1
on two pages, a state is reachable in which OCR of page 0 has started
while the signal of page 1 has not fired. -/
theorem ocr_waits_for_signal :
    (∀ (eLim oLim n : Nat) (f : Nat → List Char) (s : PipeState),
        PipeReach eLim oLim f n s →
        ∀ i, ocrBegun (s.ocr.get? i) = true → s.sig.get? i = some true) ∧
    (∃ s : PipeState, PipeReach 1 1 (fun _ => []) 2 s ∧
        s.ocr.get? 0 = some OcrPhase.started ∧ s.sig.get? 1 = some false) := by
  constructor
  · intro eLim oLim n f s h
    exact pipeSig_inv h
  · exact ⟨_, pipe_trace_two_pages, rfl, rfl⟩

/-- Claim C2, witness: the invariant applied to a concrete reachable
state in which OCR of page 0 has started. -/
theorem ocr_waits_for_signal_witness :
    (⟨1, [], [EnhPhase.resolved, EnhPhase.idle], 1, [],
      [OcrPhase.started, OcrPhase.idle], [true, false],
      [Option.none, Option.none]⟩ : PipeState).sig.get? 0 = some true :=
  ocr_waits_for_signal.1 1 1 2 (fun _ => []) _ pipe_trace_two_pages 0 (by decide)

theorem pipeResults_inv {eLim oLim n : Nat} {f : Nat → List Char} {s : PipeState}
    (h : PipeReach eLim oLim f n s) :
    s.results.length = n ∧
    (∀ i, i < n → s.ocr.get? i = some OcrPhase.done →
      s.results.get? i = some (some (normalizeExtractedText (f i)))) := by
  induction h with
  | refl =>
    refine ⟨List.length_replicate _ _, ?_⟩
    intro i hi hdone
    exfalso
    replace hdone : (List.replicate n OcrPhase.idle).get? i = some OcrPhase.done := hdone
    rw [get?_replicate, if_pos hi] at hdone
    simp at hdone
  | @tail b c hr hstep ih =>
    obtain ⟨ihl, ihr⟩ := ih
    cases hstep with
    | eAcquire i₀ hi hlt => exact ⟨ihl, ihr⟩
    | eBlock i₀ hi hge => exact ⟨ihl, ihr⟩
    | eResolve i₀ hi => exact ⟨ihl, ihr⟩
    | eReleaseNoWake i₀ hi hq => exact ⟨ihl, ihr⟩
    | eReleaseWake i₀ j q' hi hq => exact ⟨ihl, ihr⟩
    | oAcquire i₀ hi hlt =>
      refine ⟨ihl, ?_⟩
      intro i hi2 hdone
      replace hdone : (b.ocr.set i₀ OcrPhase.holding).get? i = some OcrPhase.done := hdone
      show b.results.get? i = _
      by_cases hii : i₀ = i
      · subst hii
        rcases get?_set_cases b.ocr i₀ OcrPhase.holding with hx | hx <;>
          rw [hx] at hdone <;> simp at hdone
      · rw [List.get?_set_ne _ _ hii] at hdone
        exact ihr i hi2 hdone
    | oBlock i₀ hi hge =>
      refine ⟨ihl, ?_⟩
      intro i hi2 hdone
      replace hdone : (b.ocr.set i₀ OcrPhase.queued).get? i = some OcrPhase.done := hdone
      show b.results.get? i = _
      by_cases hii : i₀ = i
      · subst hii
        rcases get?_set_cases b.ocr i₀ OcrPhase.queued with hx | hx <;>
          rw [hx] at hdone <;> simp at hdone
      · rw [List.get?_set_ne _ _ hii] at hdone
        exact ihr i hi2 hdone
    | oStart i₀ hi hsig =>
      refine ⟨ihl, ?_⟩
      intro i hi2 hdone
      replace hdone : (b.ocr.set i₀ OcrPhase.started).get? i = some OcrPhase.done := hdone
      show b.results.get? i = _
      by_cases hii : i₀ = i
      · subst hii
        rcases get?_set_cases b.ocr i₀ OcrPhase.started with hx | hx <;>
          rw [hx] at hdone <;> simp at hdone
      · rw [List.get?_set_ne _ _ hii] at hdone
        exact ihr i hi2 hdone
    | oFinishNoWake i₀ hi hq =>
      refine ⟨by simpa using ihl, ?_⟩
      intro i hi2 hdone
      replace hdone : (b.ocr.set i₀ OcrPhase.done).get? i = some OcrPhase.done := hdone
      show (b.results.set i₀ (some (normalizeExtractedText (f i₀)))).get? i = _
      by_cases hii : i₀ = i
      · subst hii
        rw [List.get?_set_eq_of_lt _ (by rw [ihl]; exact hi2)]
      · rw [List.get?_set_ne _ _ hii] at hdone
        rw [List.get?_set_ne _ _ hii]
        exact ihr i hi2 hdone
    | oFinishWake i₀ j q' hi hq =>
      refine ⟨by simpa using ihl, ?_⟩
      intro i hi2 hdone
      replace hdone :
          ((b.ocr.set i₀ OcrPhase.done).set j OcrPhase.idle).get? i =
            some OcrPhase.done := hdone
      show (b.results.set i₀ (some (normalizeExtractedText (f i₀)))).get? i = _
      by_cases hij : j = i
      · subst hij
        exfalso
        rcases get?_set_cases (b.ocr.set i₀ OcrPhase.done) j OcrPhase.idle with hx | hx <;>
          rw [hx] at hdone <;> simp at hdone
      · rw [List.get?_set_ne _ _ hij] at hdone
        by_cases hii : i₀ = i
        · subst hii
          rw [List.get?_set_eq_of_lt _ (by rw [ihl]; exact hi2)]
        · rw [List.get?_set_ne _ _ hii] at hdone
          rw [List.get?_set_ne _ _ hii]
          exact ihr i hi2 hdone

theorem pipeResults_eq {eLim oLim n : Nat} {f : Nat → List Char} {s : PipeState}
    (h : PipeReach eLim oLim f n s) (hd : pipeDone n s) :
    s.results = (List.range n).map (fun i => some (normalizeExtractedText (f i))) := by
  obtain ⟨hl, hr⟩ := pipeResults_inv h
  apply List.ext_get?
  intro i
  rcases Nat.lt_or_ge i n with hlt | hge
  · rw [hr i hlt (hd i hlt), List.get?_map, List.get?_range hlt]
    rfl
  · have h1 : s.results.get? i = none := by
      rw [List.get?_eq_none, hl]
      exact hge
    have h2 : ((List.range n).map (fun i => some (normalizeExtractedText (f i)))).get? i =
        none := by
      rw [List.get?_eq_none]
      simpa using hge
    rw [h1, h2]

/-- Claim C4: for every complete run over `n` pages, the `pageResults`
array holds exactly the per-page normalized recognized texts in
ascending page-index order, and the assembled result text is identical
across any two executions of the same inputs, whatever the order in
which enhancement and recognition tasks were scheduled. -/
theorem page_order_deterministic (eLim oLim n : Nat) (f : Nat → List Char)
    (mk : Bool) (s₁ s₂ : PipeState)
    (h₁ : PipeReach eLim oLim f n s₁) (hd₁ : pipeDone n s₁)
    (h₂ : PipeReach eLim oLim f n s₂) (hd₂ : pipeDone n s₂) :
    readResults s₁ = (List.range n).map (fun i => normalizeExtractedText (f i)) ∧
    resultText mk (readResults s₁) = resultText mk (readResults s₂) := by
  have hread : ∀ s : PipeState,
      s.results = (List.range n).map (fun i => some (normalizeExtractedText (f i))) →
      readResults s = (List.range n).map (fun i => normalizeExtractedText (f i)) := by
    intro s hs
    rw [readResults, hs, List.map_map]
    rfl
  refine ⟨hread s₁ (pipeResults_eq h₁ hd₁), ?_⟩
  rw [hread s₁ (pipeResults_eq h₁ hd₁), hread s₂ (pipeResults_eq h₂ hd₂)]

/-- Claim C4, witness: a complete one-page run whose recognized text is
`"Hi"`, with both executions taken to be the same concrete trace. -/
theorem page_order_deterministic_witness :
    readResults (⟨0, [], [EnhPhase.done], 0, [], [OcrPhase.done], [true],
      [some (normalizeExtractedText "Hi".data)]⟩ : PipeState) =
      (List.range 1).map (fun i => normalizeExtractedText ((fun _ => "Hi".data) i)) := by
  have htr : PipeReach 1 1 (fun _ => "Hi".data) 1
      ⟨0, [], [EnhPhase.done], 0, [], [OcrPhase.done], [true],
        [some (normalizeExtractedText "Hi".data)]⟩ := by
    refine Relation.ReflTransGen.head
      (PipeStep.eAcquire (PipeState.init 1) 0 (by decide) (by decide)) ?_
    refine Relation.ReflTransGen.head (PipeStep.eResolve _ 0 (by decide)) ?_
    refine Relation.ReflTransGen.head (PipeStep.eReleaseNoWake _ 0 (by decide) rfl) ?_
    refine Relation.ReflTransGen.head (PipeStep.oAcquire _ 0 (by decide) (by decide)) ?_
    refine Relation.ReflTransGen.head (PipeStep.oStart _ 0 (by decide) (by decide)) ?_
    exact Relation.ReflTransGen.single (PipeStep.oFinishNoWake _ 0 (by decide) rfl)
  have hdone : pipeDone 1 ⟨0, [], [EnhPhase.done], 0, [], [OcrPhase.done], [true],
      [some (normalizeExtractedText "Hi".data)]⟩ := by
    intro i hi
    have hi0 : i = 0 := by omega
    subst hi0
    rfl
  exact (page_order_deterministic 1 1 1 (fun _ => "Hi".data) false _ _
    htr hdone htr hdone).1

/- ======================================================
   Lemmas: the coordinator and cleanup (Claims C3, C8, C9)
   ====================================================== -/

theorem startsWithList_append (pre : FsPath) :
    ∀ rest, startsWithList pre (pre ++ rest) = true := by
  induction pre with
  | nil => intro rest; rfl
  | cons a pre' ih =>
    intro rest
    show (a = a && startsWithList pre' (pre' ++ rest)) = true
    rw [ih rest]
    simp

theorem startsWithList_pagePng (session : FsPath) (p : Nat) :
    startsWithList session (pagePngPath session p) = true := by
  rw [pagePngPath, List.append_assoc, List.append_assoc]
  exact startsWithList_append session _

theorem startsWithList_enhancedPng (session : FsPath) (p : Nat) :
    startsWithList session (enhancedPngPath session p) = true := by
  rw [enhancedPngPath, List.append_assoc, List.append_assoc]
  exact startsWithList_append session _

theorem convertPages_fs (session : FsPath) (convOk : Nat → Bool) :
    ∀ (ps : List Nat) (fs : List FsPath) (evs : List Ev),
      ∃ added, (convertPages session convOk ps fs evs).2.1 = fs ++ added ∧
        ∀ p ∈ added, startsWithList session p = true := by
  intro ps
  induction ps with
  | nil =>
    intro fs evs
    exact ⟨[], by simp [convertPages], by intro p hp; simp at hp⟩
  | cons q rest ih =>
    intro fs evs
    rw [convertPages]
    by_cases hc : convOk q = true
    · rw [if_pos hc]
      obtain ⟨added, h1, h2⟩ := ih (fs ++ [pagePngPath session q]) (evs ++ [Ev.convertCall q])
      refine ⟨pagePngPath session q :: added, ?_, ?_⟩
      · rw [h1, List.append_assoc, List.singleton_append]
      · intro p hp
        rcases List.mem_cons.mp hp with rfl | hp2
        · exact startsWithList_pagePng session q
        · exact h2 p hp2
    · rw [if_neg hc]
      exact ⟨[], by simp, by intro p hp; simp at hp⟩

theorem processPages_fs (session : FsPath) (enhOk ocrOk : Nat → Bool) (f : Nat → List Char) :
    ∀ (ps : List Nat) (fs : List FsPath) (evs : List Ev) (acc : List (List Char)),
      ∃ added, (processPages session enhOk ocrOk f ps fs evs acc).2.1 = fs ++ added ∧
        ∀ p ∈ added, startsWithList session p = true := by
  intro ps
  induction ps with
  | nil =>
    intro fs evs acc
    exact ⟨[], by simp [processPages], by intro p hp; simp at hp⟩
  | cons q rest ih =>
    intro fs evs acc
    rw [processPages]
    by_cases he : enhOk q = true
    · rw [if_pos he]
      by_cases ho : ocrOk q = true
      · rw [if_pos ho]
        obtain ⟨added, h1, h2⟩ := ih (fs ++ [enhancedPngPath session q])
          (evs ++ [Ev.enhanceCall q] ++ [Ev.ocrCall q])
          (acc ++ [normalizeExtractedText (f q)])
        refine ⟨enhancedPngPath session q :: added, ?_, ?_⟩
        · rw [h1, List.append_assoc, List.singleton_append]
        · intro p hp
          rcases List.mem_cons.mp hp with rfl | hp2
          · exact startsWithList_enhancedPng session q
          · exact h2 p hp2
      · rw [if_neg ho]
        refine ⟨[enhancedPngPath session q], rfl, ?_⟩
        intro p hp
        rcases List.mem_cons.mp hp with rfl | hp2
        · exact startsWithList_enhancedPng session q
        · simp at hp2
    · rw [if_neg he]
      exact ⟨[], by simp, by intro p hp; simp at hp⟩

theorem pipelineBody_fs (session : FsPath) (mutoolOut : List Char)
    (convOk enhOk ocrOk : Nat → Bool) (f : Nat → List Char) (mk : Bool)
    (fs₀ : List FsPath) :
    ∃ added,
      (pipelineBody session mutoolOut convOk enhOk ocrOk f mk fs₀).2.1 = fs₀ ++ added ∧
      ∀ p ∈ added, startsWithList session p = true := by
  have hdirs : ∀ p ∈ [session ++ "/pages".data, session ++ "/ocr_best".data,
      session ++ "/input.pdf".data], startsWithList session p = true := by
    intro p hp
    rcases List.mem_cons.mp hp with rfl | hp
    · exact startsWithList_append session _
    rcases List.mem_cons.mp hp with rfl | hp
    · exact startsWithList_append session _
    rcases List.mem_cons.mp hp with rfl | hp
    · exact startsWithList_append session _
    · simp at hp
  cases hc : getPdfPageCount mutoolOut with
  | error e =>
    refine ⟨[session ++ "/pages".data, session ++ "/ocr_best".data,
      session ++ "/input.pdf".data], ?_, hdirs⟩
    simp only [pipelineBody, hc]
  | ok n =>
    obtain ⟨added₁, hc1, hc2⟩ := convertPages_fs session convOk (List.range' 1 n)
      (fs₀ ++ [session ++ "/pages".data, session ++ "/ocr_best".data,
        session ++ "/input.pdf".data]) []
    rcases hcv : convertPages session convOk (List.range' 1 n)
        (fs₀ ++ [session ++ "/pages".data, session ++ "/ocr_best".data,
          session ++ "/input.pdf".data]) [] with ⟨cres, cfs, cevs⟩
    rw [hcv] at hc1
    simp only at hc1
    cases cres with
    | error e =>
      refine ⟨[session ++ "/pages".data, session ++ "/ocr_best".data,
        session ++ "/input.pdf".data] ++ added₁, ?_, ?_⟩
      · simp only [pipelineBody, hc, hcv]
        rw [hc1, List.append_assoc]
      · intro p hp
        rcases List.mem_append.mp hp with hp1 | hp1
        · exact hdirs p hp1
        · exact hc2 p hp1
    | ok u =>
      obtain ⟨added₂, hp1, hp2⟩ := processPages_fs session enhOk ocrOk f
        (List.range' 1 n) cfs cevs []
      rcases hpv : processPages session enhOk ocrOk f (List.range' 1 n) cfs cevs []
        with ⟨pres, pfs, pevs⟩
      rw [hpv] at hp1
      simp only at hp1
      have hfin : pfs = fs₀ ++ ([session ++ "/pages".data, session ++ "/ocr_best".data,
          session ++ "/input.pdf".data] ++ (added₁ ++ added₂)) := by
        rw [hp1, hc1]
        simp [List.append_assoc]
      have hmem : ∀ p ∈ [session ++ "/pages".data, session ++ "/ocr_best".data,
          session ++ "/input.pdf".data] ++ (added₁ ++ added₂),
          startsWithList session p = true := by
        intro p hp
        rcases List.mem_append.mp hp with hp1 | hp1
        · exact hdirs p hp1
        · rcases List.mem_append.mp hp1 with hq | hq
          · exact hc2 p hq
          · exact hp2 p hq
      cases pres with
      | error e =>
        refine ⟨[session ++ "/pages".data, session ++ "/ocr_best".data,
          session ++ "/input.pdf".data] ++ (added₁ ++ added₂), ?_, hmem⟩
        simp only [pipelineBody, hc, hcv, hpv]
        exact hfin
      | ok results =>
        refine ⟨[session ++ "/pages".data, session ++ "/ocr_best".data,
          session ++ "/input.pdf".data] ++ (added₁ ++ added₂), ?_, hmem⟩
        simp only [pipelineBody, hc, hcv, hpv]
        exact hfin

theorem runOcrPipeline_eq (session : FsPath) (mutoolOut : List Char)
    (convOk enhOk ocrOk : Nat → Bool) (f : Nat → List Char) (mk : Bool)
    (fs₀ : List FsPath) :
    runOcrPipeline session mutoolOut convOk enhOk ocrOk f mk fs₀ =
      ((pipelineBody session mutoolOut convOk enhOk ocrOk f mk fs₀).1,
        rmSession session (pipelineBody session mutoolOut convOk enhOk ocrOk f mk fs₀).2.1,
        (pipelineBody session mutoolOut convOk enhOk ocrOk f mk fs₀).2.2) := by
  unfold runOcrPipeline
  rcases pipelineBody session mutoolOut convOk enhOk ocrOk f mk fs₀ with ⟨res, fs, evs⟩
  cases res <;> rfl

theorem mem_rmSession {session : FsPath} {fs : List FsPath} {p : FsPath}
    (h : p ∈ rmSession session fs) : startsWithList session p = false := by
  have hx := (List.mem_filter.mp h).2
  simpa using hx

/-- Claim C3: for every run of the pipeline — whatever the page-count
output, the per-page conversion, enhancement and recognition outcomes,
the marker mode and the pre-existing file system — every path under the
session workspace is removed before the function returns (only the
non-session paths of the original file system remain), and the outcome
the caller observes is exactly the outcome of the `try` body: an error
raised by any stage after workspace creation is re-raised unmodified
after cleanup, and a successful envelope is returned unchanged after the
same cleanup. -/
theorem cleanup_and_rethrow (session : FsPath) (mutoolOut : List Char)
    (convOk enhOk ocrOk : Nat → Bool) (f : Nat → List Char) (mk : Bool)
    (fs₀ : List FsPath) :
    (runOcrPipeline session mutoolOut convOk enhOk ocrOk f mk fs₀).2.1 =
      fs₀.filter (fun p => !startsWithList session p) ∧
    (runOcrPipeline session mutoolOut convOk enhOk ocrOk f mk fs₀).1 =
      (pipelineBody session mutoolOut convOk enhOk ocrOk f mk fs₀).1 := by
  obtain ⟨added, hfs, hall⟩ :=
    pipelineBody_fs session mutoolOut convOk enhOk ocrOk f mk fs₀
  rw [runOcrPipeline_eq]
  refine ⟨?_, rfl⟩
  show rmSession session (pipelineBody session mutoolOut convOk enhOk ocrOk f mk fs₀).2.1 = _
  rw [hfs, rmSession, List.filter_append]
  have hnil : added.filter (fun p => !startsWithList session p) = [] := by
    apply List.filter_eq_nil.mpr
    intro p hp
    simp [hall p hp]
  rw [hnil, List.append_nil]

theorem getPdfPageCount_of_bad {out : List Char} (h : pageCountBad out = true) :
    getPdfPageCount out = Except.error (PErr.invalidPageCount out) := by
  rw [pageCountBad] at h
  rw [getPdfPageCount]
  cases hp : parseIntJs out with
  | none => rfl
  | some n =>
    rw [hp] at h
    simp at h
    show (if n < 1 then Except.error (PErr.invalidPageCount out) else Except.ok n.toNat) =
      Except.error (PErr.invalidPageCount out)
    rw [if_pos h]

/-- Claim C8: if the reported page count is missing, non-numeric, or
less than 1 (`parseInt` gives `NaN` or a value below 1), the run returns
the invalid-page-count error carrying the raw counter output, performs
no page conversion, enhancement or recognition call, and leaves no path
under the session workspace behind. -/
theorem invalid_page_count_fail_fast (session : FsPath) (mutoolOut : List Char)
    (convOk enhOk ocrOk : Nat → Bool) (f : Nat → List Char) (mk : Bool)
    (fs₀ : List FsPath) (h : pageCountBad mutoolOut = true) :
    (runOcrPipeline session mutoolOut convOk enhOk ocrOk f mk fs₀).1 =
      Except.error (PErr.invalidPageCount mutoolOut) ∧
    (runOcrPipeline session mutoolOut convOk enhOk ocrOk f mk fs₀).2.2 = [] ∧
    ∀ p ∈ (runOcrPipeline session mutoolOut convOk enhOk ocrOk f mk fs₀).2.1,
      startsWithList session p = false := by
  have hbody : pipelineBody session mutoolOut convOk enhOk ocrOk f mk fs₀ =
      (Except.error (PErr.invalidPageCount mutoolOut),
        fs₀ ++ [session ++ "/pages".data, session ++ "/ocr_best".data,
          session ++ "/input.pdf".data], []) := by
    unfold pipelineBody
    rw [getPdfPageCount_of_bad h]
  rw [runOcrPipeline_eq, hbody]
  refine ⟨rfl, rfl, ?_⟩
  intro p hp
  exact mem_rmSession hp

/-- Claim C8, witness: the counter reports 0, so `parseInt` yields a
value below 1 and the run fails fast. -/
theorem invalid_page_count_fail_fast_witness :
    pageCountBad "0".data = true ∧
    (runOcrPipeline "s".data "0".data (fun _ => true) (fun _ => true) (fun _ => true)
      (fun _ => []) false []).1 =
      Except.error (PErr.invalidPageCount "0".data) :=
  ⟨by decide,
    (invalid_page_count_fail_fast "s".data "0".data (fun _ => true) (fun _ => true)
      (fun _ => true) (fun _ => []) false [] (by decide)).1⟩

/-- Claim C9: if the credentials file is absent, module initialization
raises the configuration error before any pipeline session: the caller
observes the credentials error, the file system is untouched (no session
workspace is created), and no conversion, enhancement or recognition
call is made. -/
theorem missing_credentials_aborts (keyfileExists : Bool) (session : FsPath)
    (mutoolOut : List Char) (convOk enhOk ocrOk : Nat → Bool) (f : Nat → List Char)
    (mk : Bool) (fs₀ : List FsPath) (h : keyfileExists = false) :
    (moduleRun keyfileExists session mutoolOut convOk enhOk ocrOk f mk fs₀).1 =
      Except.error PErr.credentialsNotFound ∧
    (moduleRun keyfileExists session mutoolOut convOk enhOk ocrOk f mk fs₀).2.1 = fs₀ ∧
    (moduleRun keyfileExists session mutoolOut convOk enhOk ocrOk f mk fs₀).2.2 = [] := by
  subst h
  exact ⟨rfl, rfl, rfl⟩

/-- Claim C9, witness: the abort at a concrete configuration. -/
theorem missing_credentials_aborts_witness :
    (moduleRun false "s".data "1".data (fun _ => true) (fun _ => true) (fun _ => true)
      (fun _ => []) false ["keep".data]).2.1 = ["keep".data] :=
  (missing_credentials_aborts false "s".data "1".data (fun _ => true) (fun _ => true)
    (fun _ => true) (fun _ => []) false ["keep".data] rfl).2.1

end NtOcr
